import Mathlib

/-!
Verification of the SierpChain consensus and ledger engine.

Rust strings are modelled as `List Char`; `u64`/`usize` as `Nat`; `i64`
timestamps as `Int`.  The SHA-256-over-JSON hash functions
(`Block::calculate_hash`, `Transaction::calculate_hash`) are abstracted as
function parameters `h` over the *cleared* record, exactly mirroring the
source, which blanks the `hash` (resp. `id`/`script_sig`/`pub_key`) fields
before hashing.  The ed25519 primitives and hex codec from external crates
are likewise abstracted as parameters with the properties the crates
guarantee.  Fallible Rust operations (`unwrap`, slice indexing) are
modelled with `Option`.  The floating-point fractal payloads are opaque
type parameters: no claim depends on their contents.
-/

namespace SierpChain

/-- A Rust string, as a sequence of characters. -/
abbrev Str := List Char

/-- `"0".repeat(n)`: a run of `n` ASCII zero characters. -/
def zeros (n : Nat) : Str := List.replicate n '0'

/-- `src/src/core/transaction.rs`: an input to a transaction. -/
structure TxInput where
  txid : Str
  vout : Nat
  script_sig : Str
  pub_key : Str
  sequence : Nat
  deriving Repr, DecidableEq

/-- `src/src/core/transaction.rs`: an output from a transaction. -/
structure TxOutput where
  value : Nat
  script_pub_key : Str
  deriving Repr, DecidableEq

/-- `src/src/core/transaction.rs`: a transaction. -/
structure Transaction where
  id : Str
  timestamp : Int
  inputs : List TxInput
  outputs : List TxOutput
  deriving Repr, DecidableEq

/-- `src/src/blockchain/block.rs`: a block.  `FD` is the (opaque)
fractal-data payload type. -/
structure Block (FD : Type) where
  index : Nat
  timestamp : Int
  fractal : FD
  transactions : List Transaction
  previous_hash : Str
  hash : Str
  nonce : Nat
  deriving Repr, DecidableEq

/-- `src/src/blockchain/chain.rs`: the blockchain. -/
structure Blockchain (FD : Type) where
  chain : List (Block FD)
  difficulty : Nat
  deriving Repr, DecidableEq

/-- `Block::calculate_hash`: the hash field is blanked, the rest is
serialized and SHA-256-hashed; `h` abstracts serialize-then-SHA256. -/
def Block.calculate_hash {FD : Type} (h : Block FD → Str) (b : Block FD) : Str :=
  h { b with hash := [] }

/-- `src/src/blockchain/chain.rs`: `BLOCK_GENERATION_INTERVAL` (seconds per block). -/
def BLOCK_GENERATION_INTERVAL : Int := 10

/-- `src/src/blockchain/chain.rs`: `DIFFICULTY_ADJUSTMENT_INTERVAL` (blocks). -/
def DIFFICULTY_ADJUSTMENT_INTERVAL : Nat := 10

/-- `Blockchain::is_block_valid` (chain.rs lines 131-151), with the wall
clock `Utc::now().timestamp()` passed in as `now`. -/
def Blockchain.is_block_valid {FD : Type} (h : Block FD → Str) (now : Int)
    (bc : Blockchain FD) (new_block previous_block : Block FD) : Bool :=
  if new_block.index ≠ previous_block.index + 1 then false
  else if new_block.previous_hash ≠ previous_block.hash then false
  else if ¬ (zeros bc.difficulty <+: new_block.hash) ∨
          new_block.hash ≠ Block.calculate_hash h new_block then false
  else if new_block.timestamp > now + 30 then false
  else if new_block.timestamp < previous_block.timestamp then false
  else true

/-- Claim C1: `is_block_valid(b, p)` returns true iff all four rules hold:
index succession, previous-hash linkage, difficulty-many leading `'0'`
characters together with hash recomputation, and the timestamp window
`p.timestamp ≤ b.timestamp ≤ now + 30`. -/
theorem is_block_valid_iff {FD : Type} (h : Block FD → Str) (now : Int)
    (bc : Blockchain FD) (b p : Block FD) :
    bc.is_block_valid h now b p = true ↔
      (b.index = p.index + 1 ∧
       b.previous_hash = p.hash ∧
       (zeros bc.difficulty <+: b.hash ∧ b.hash = Block.calculate_hash h b) ∧
       (b.timestamp ≤ now + 30 ∧ p.timestamp ≤ b.timestamp)) := by
  unfold Blockchain.is_block_valid
  by_cases h1 : b.index = p.index + 1 <;>
    by_cases h2 : b.previous_hash = p.hash <;>
    by_cases h3 : zeros bc.difficulty <+: b.hash <;>
    by_cases h4 : b.hash = Block.calculate_hash h b <;>
    by_cases h5 : b.timestamp ≤ now + 30 <;>
    by_cases h6 : p.timestamp ≤ b.timestamp <;>
    simp [h1, h2, h3, h4, h5, h6]

/-- `Blockchain::adjust_difficulty` (chain.rs lines 53-70).  `none` models
the panics of the source: `unwrap` on an empty chain, and out-of-bounds
indexing `chain[(latest.index - 10)]`. -/
def Blockchain.adjust_difficulty {FD : Type} (bc : Blockchain FD) :
    Option (Blockchain FD) :=
  match bc.chain.getLast? with
  | none => none
  | some latest_block =>
    if latest_block.index % DIFFICULTY_ADJUSTMENT_INTERVAL = 0 ∧
        latest_block.index ≠ 0 then
      match bc.chain.get? (latest_block.index - DIFFICULTY_ADJUSTMENT_INTERVAL) with
      | none => none
      | some previous_adjustment_block =>
        let time_taken := latest_block.timestamp - previous_adjustment_block.timestamp
        let expected_time := (DIFFICULTY_ADJUSTMENT_INTERVAL : Int) * BLOCK_GENERATION_INTERVAL
        if time_taken < expected_time / 2 then
          some { bc with difficulty := bc.difficulty + 1 }
        else if time_taken > expected_time * 2 then
          if bc.difficulty > 1 then
            some { bc with difficulty := bc.difficulty - 1 }
          else some bc
        else some bc
    else some bc

/-- `Blockchain::add_block_from_network` (chain.rs lines 119-128): returns
the bool result of the source together with the updated state; `none`
models the panics inside (`unwrap` on empty chain, indexing in
`adjust_difficulty`). -/
def Blockchain.add_block_from_network {FD : Type} (h : Block FD → Str)
    (now : Int) (bc : Blockchain FD) (block : Block FD) :
    Option (Bool × Blockchain FD) :=
  match bc.chain.getLast? with
  | none => none
  | some previous_block =>
    if bc.is_block_valid h now block previous_block then
      match ({ bc with chain := bc.chain ++ [block] } : Blockchain FD).adjust_difficulty with
      | none => none
      | some bc' => some (true, bc')
    else some (false, bc)

theorem adjust_difficulty_chain_eq {FD : Type} {bc bc' : Blockchain FD}
    (hadj : bc.adjust_difficulty = some bc') : bc'.chain = bc.chain := by
  unfold Blockchain.adjust_difficulty at hadj
  rcases hl : bc.chain.getLast? with _ | latest <;> rw [hl] at hadj
  · exact absurd hadj (by simp)
  · by_cases hc : latest.index % DIFFICULTY_ADJUSTMENT_INTERVAL = 0 ∧ latest.index ≠ 0
    · simp only [if_pos hc] at hadj
      rcases hg : bc.chain.get? (latest.index - DIFFICULTY_ADJUSTMENT_INTERVAL) with _ | prev <;>
        rw [hg] at hadj
      · exact absurd hadj (by simp)
      · dsimp only at hadj
        split at hadj
        · cases hadj; rfl
        · split at hadj
          · split at hadj <;> (cases hadj; rfl)
          · cases hadj; rfl
    · simp only [if_neg hc] at hadj
      cases hadj; rfl

/-- Claim C6: `adjust_difficulty` changes the difficulty only when the
latest block's index is a nonzero multiple of 10; in that case, with
`time_taken = latest.timestamp - chain[latest.index - 10].timestamp` and
`expected = 10 × 10` seconds, it increments by exactly 1 when
`time_taken < expected/2`, decrements by exactly 1 when
`time_taken > expected×2` and the difficulty exceeds 1, and otherwise
leaves the difficulty unchanged. -/
theorem adjust_difficulty_spec {FD : Type} (bc bc' : Blockchain FD)
    (latest : Block FD) (hlast : bc.chain.getLast? = some latest)
    (hadj : bc.adjust_difficulty = some bc') :
    (¬ (latest.index % 10 = 0 ∧ latest.index ≠ 0) →
        bc'.difficulty = bc.difficulty) ∧
    (∀ prev, latest.index % 10 = 0 → latest.index ≠ 0 →
      bc.chain.get? (latest.index - 10) = some prev →
      (latest.timestamp - prev.timestamp < (10 * 10 : Int) / 2 →
          bc'.difficulty = bc.difficulty + 1) ∧
      (latest.timestamp - prev.timestamp > (10 * 10 : Int) * 2 →
          bc.difficulty > 1 → bc'.difficulty = bc.difficulty - 1) ∧
      (latest.timestamp - prev.timestamp > (10 * 10 : Int) * 2 →
          ¬ bc.difficulty > 1 → bc'.difficulty = bc.difficulty) ∧
      (¬ latest.timestamp - prev.timestamp < (10 * 10 : Int) / 2 →
          ¬ latest.timestamp - prev.timestamp > (10 * 10 : Int) * 2 →
          bc'.difficulty = bc.difficulty)) := by
  unfold Blockchain.adjust_difficulty at hadj
  rw [hlast] at hadj
  simp only [DIFFICULTY_ADJUSTMENT_INTERVAL, BLOCK_GENERATION_INTERVAL,
    Nat.cast_ofNat] at hadj
  by_cases hcond : latest.index % 10 = 0 ∧ latest.index ≠ 0
  · rw [if_pos hcond] at hadj
    refine ⟨fun hc => absurd hcond hc, fun prev hmod hne hget => ?_⟩
    rw [hget] at hadj
    dsimp only at hadj
    split at hadj
    · cases hadj
      refine ⟨?_, ?_, ?_, ?_⟩ <;> intros <;> first | rfl | (exfalso; omega)
    · split at hadj
      · split at hadj
        · cases hadj
          refine ⟨?_, ?_, ?_, ?_⟩ <;> intros <;> first | rfl | (exfalso; omega)
        · cases hadj
          refine ⟨?_, ?_, ?_, ?_⟩ <;> intros <;> first | rfl | (exfalso; omega)
      · cases hadj
        refine ⟨?_, ?_, ?_, ?_⟩ <;> intros <;> first | rfl | (exfalso; omega)
  · rw [if_neg hcond] at hadj
    cases hadj
    exact ⟨fun _ => rfl, fun prev hmod hne _ => absurd ⟨hmod, hne⟩ hcond⟩

theorem getLast?_append_singleton {α : Type} (l : List α) (a : α) :
    (l ++ [a]).getLast? = some a := by
  rw [List.getLast?_append_cons]
  rfl

/-- Claim C7: a block accepted by `add_block_from_network` is appended
exactly once: immediately resubmitting it returns `false` (it fails the
index check against the tip, which is now the block itself) and leaves the
state unchanged; and in general every `false` return leaves the chain and
difficulty exactly as before the call. -/
theorem add_block_from_network_idempotent {FD : Type} (h : Block FD → Str)
    (now now2 : Int) (bc bc' : Blockchain FD) (b : Block FD) :
    (bc.add_block_from_network h now b = some (true, bc') →
      bc'.chain = bc.chain ++ [b] ∧
      bc'.add_block_from_network h now2 b = some (false, bc')) ∧
    (∀ bc'', bc.add_block_from_network h now b = some (false, bc'') →
      bc'' = bc) := by
  constructor
  · intro hacc
    unfold Blockchain.add_block_from_network at hacc
    rcases hl : bc.chain.getLast? with _ | prev <;> rw [hl] at hacc
    · exact absurd hacc (by simp)
    · dsimp only at hacc
      split at hacc
      · rcases ha : ({ bc with chain := bc.chain ++ [b] } :
            Blockchain FD).adjust_difficulty with _ | bc2 <;> rw [ha] at hacc
        · exact absurd hacc (by simp)
        · dsimp only at hacc
          cases hacc
          have hchain : bc'.chain = bc.chain ++ [b] := adjust_difficulty_chain_eq ha
          refine ⟨hchain, ?_⟩
          have hv : bc'.is_block_valid h now2 b b = false := by
            unfold Blockchain.is_block_valid
            rw [if_pos (by omega)]
          unfold Blockchain.add_block_from_network
          rw [hchain, getLast?_append_singleton]
          dsimp only
          rw [hv]
          simp
      · exact absurd hacc (by simp)
  · intro bc'' hrej
    unfold Blockchain.add_block_from_network at hrej
    rcases hl : bc.chain.getLast? with _ | prev <;> rw [hl] at hrej
    · exact absurd hrej (by simp)
    · dsimp only at hrej
      split at hrej
      · rcases ha : ({ bc with chain := bc.chain ++ [b] } :
            Blockchain FD).adjust_difficulty with _ | bc2 <;> rw [ha] at hrej
        · exact absurd hrej (by simp)
        · exact absurd hrej (by simp)
      · cases hrej
        rfl

/-- `src/src/main.rs`: the shared node state — the blockchain behind one
mutex and the transaction pool behind another. -/
structure NodeState (FD : Type) where
  blockchain : Blockchain FD
  transaction_pool : List Transaction
  deriving Repr, DecidableEq

/-- `src/src/main.rs` lines 130-138: the `P2pMessage::ChainResponse(chain)`
arm of the inbound dispatcher — adopt the foreign chain iff it has strictly
more blocks; only the `chain` field of the local blockchain is written. -/
def handle_chain_response {FD : Type} (st : NodeState FD)
    (foreign : Blockchain FD) : NodeState FD :=
  if foreign.chain.length > st.blockchain.chain.length then
    { st with blockchain := { st.blockchain with chain := foreign.chain } }
  else st

/-- Claim C2: on an inbound `ChainResponse`, a strictly longer foreign
chain replaces the local chain wholesale — no validity condition on the
foreign blocks is consulted, so afterwards the local chain length equals
the foreign length; a foreign chain that is not strictly longer leaves the
local chain unchanged. -/
theorem chain_response_longest_chain {FD : Type} (st : NodeState FD)
    (foreign : Blockchain FD) :
    (foreign.chain.length > st.blockchain.chain.length →
      (handle_chain_response st foreign).blockchain.chain = foreign.chain ∧
      (handle_chain_response st foreign).blockchain.chain.length
        = foreign.chain.length) ∧
    (¬ foreign.chain.length > st.blockchain.chain.length →
      (handle_chain_response st foreign).blockchain.chain
        = st.blockchain.chain) := by
  unfold handle_chain_response
  by_cases hlen : foreign.chain.length > st.blockchain.chain.length
  · rw [if_pos hlen]
    exact ⟨fun _ => ⟨rfl, rfl⟩, fun hc => absurd hlen hc⟩
  · rw [if_neg hlen]
    exact ⟨fun hc => absurd hc hlen, fun _ => rfl⟩

/-- Claim C10: the `ChainResponse` handler writes only the local
blockchain's `chain` field — the local difficulty keeps its previous value
(the difficulty carried in the foreign snapshot is discarded) and the
transaction pool is untouched; and when the foreign chain is not strictly
longer, the whole local state is unchanged. -/
theorem chain_response_frame {FD : Type} (st : NodeState FD)
    (foreign : Blockchain FD) :
    (handle_chain_response st foreign).blockchain.difficulty
      = st.blockchain.difficulty ∧
    (handle_chain_response st foreign).transaction_pool
      = st.transaction_pool ∧
    (¬ foreign.chain.length > st.blockchain.chain.length →
      handle_chain_response st foreign = st) := by
  unfold handle_chain_response
  by_cases hlen : foreign.chain.length > st.blockchain.chain.length
  · rw [if_pos hlen]
    exact ⟨rfl, rfl, fun hc => absurd hlen hc⟩
  · rw [if_neg hlen]
    exact ⟨rfl, rfl, fun _ => rfl⟩

/-- The states reachable from `bc` by any sequence of
`add_block_from_network` calls (any wall-clock values, any blocks,
accepted or rejected). -/
inductive ReachableFrom {FD : Type} (h : Block FD → Str) :
    Blockchain FD → Blockchain FD → Prop where
  | refl (bc : Blockchain FD) : ReachableFrom h bc bc
  | step (bc bc' bc'' : Blockchain FD) (now : Int) (b : Block FD) (ok : Bool) :
      ReachableFrom h bc bc' →
      bc'.add_block_from_network h now b = some (ok, bc'') →
      ReachableFrom h bc bc''

theorem adjust_difficulty_one_le {FD : Type} {bc bc' : Blockchain FD}
    (hadj : bc.adjust_difficulty = some bc') (hd : 1 ≤ bc.difficulty) :
    1 ≤ bc'.difficulty := by
  unfold Blockchain.adjust_difficulty at hadj
  rcases hl : bc.chain.getLast? with _ | latest <;> rw [hl] at hadj
  · exact absurd hadj (by simp)
  · by_cases hc : latest.index % DIFFICULTY_ADJUSTMENT_INTERVAL = 0 ∧ latest.index ≠ 0
    · simp only [if_pos hc] at hadj
      rcases hg : bc.chain.get? (latest.index - DIFFICULTY_ADJUSTMENT_INTERVAL)
          with _ | prev <;> rw [hg] at hadj
      · exact absurd hadj (by simp)
      · dsimp only at hadj
        split at hadj
        · cases hadj; dsimp only; omega
        · split at hadj
          · split at hadj
            · cases hadj; dsimp only; omega
            · cases hadj; exact hd
          · cases hadj; exact hd
    · simp only [if_neg hc] at hadj
      cases hadj; exact hd

theorem add_block_from_network_one_le {FD : Type} (h : Block FD → Str)
    {now : Int} {bc bc' : Blockchain FD} {b : Block FD} {ok : Bool}
    (hstep : bc.add_block_from_network h now b = some (ok, bc'))
    (hd : 1 ≤ bc.difficulty) : 1 ≤ bc'.difficulty := by
  unfold Blockchain.add_block_from_network at hstep
  rcases hl : bc.chain.getLast? with _ | prev <;> rw [hl] at hstep
  · exact absurd hstep (by simp)
  · dsimp only at hstep
    split at hstep
    · rcases ha : ({ bc with chain := bc.chain ++ [b] } :
          Blockchain FD).adjust_difficulty with _ | bc2 <;> rw [ha] at hstep
      · exact absurd hstep (by simp)
      · dsimp only at hstep
        cases hstep
        exact adjust_difficulty_one_le ha hd
    · cases hstep
      exact hd

/-- Claim C9: the difficulty never drops below 1 regardless of how fast
blocks are mined — `adjust_difficulty` only decrements when the difficulty
strictly exceeds 1, so no sequence of `add_block_from_network` acceptances
takes a difficulty ≥ 1 below 1. -/
theorem difficulty_never_below_one {FD : Type} (h : Block FD → Str)
    (bc bc' : Blockchain FD) (hreach : ReachableFrom h bc bc')
    (hd : 1 ≤ bc.difficulty) : 1 ≤ bc'.difficulty := by
  induction hreach with
  | refl => exact hd
  | step bcb bcc now b ok hr hstep ih =>
      exact add_block_from_network_one_le h hstep ih

/-- A minimal concrete block over the trivial fractal payload, used by the
witnesses below. -/
def blk (i : Nat) : Block Unit :=
  { index := i, timestamp := 0, fractal := (), transactions := [],
    previous_hash := [], hash := [], nonce := 0 }

/-- A concrete tip block whose hash is `['0']` under the constant hash
function `fun x => ['0']`. -/
def wb0 : Block Unit := { blk 0 with hash := ['0'] }

/-- A concrete successor of `wb0`, valid at difficulty 1 under the constant
hash function. -/
def wb1 : Block Unit := { blk 1 with previous_hash := ['0'], hash := ['0'] }

/-- Witness for C6 at a concrete chain whose tip has index 10 and was mined
fast: the difficulty moves from 3 to 4. -/
theorem adjust_difficulty_spec_witness :
    ({ chain := [blk 0, blk 10], difficulty := 4 } : Blockchain Unit).difficulty
      = ({ chain := [blk 0, blk 10], difficulty := 3 } : Blockchain Unit).difficulty + 1 :=
  ((adjust_difficulty_spec { chain := [blk 0, blk 10], difficulty := 3 }
      { chain := [blk 0, blk 10], difficulty := 4 } (blk 10)
      (by decide) (by decide)).2
    (blk 0) (by decide) (by decide) (by decide)).1 (by decide)

/-- Witness for C7: a concrete accepted block, whose resubmission returns
`false` and changes nothing; and a concrete rejected submission that left
the state untouched. -/
theorem add_block_from_network_idempotent_witness :
    (({ chain := [wb0, wb1], difficulty := 1 } : Blockchain Unit).chain
        = ({ chain := [wb0], difficulty := 1 } : Blockchain Unit).chain ++ [wb1] ∧
      Blockchain.add_block_from_network (fun _ => ['0']) 0
          { chain := [wb0, wb1], difficulty := 1 } wb1
        = some (false, { chain := [wb0, wb1], difficulty := 1 })) ∧
    ({ chain := [wb0, wb1], difficulty := 1 } : Blockchain Unit)
      = { chain := [wb0, wb1], difficulty := 1 } :=
  ⟨(add_block_from_network_idempotent (fun _ => ['0']) 0 0
      { chain := [wb0], difficulty := 1 }
      { chain := [wb0, wb1], difficulty := 1 } wb1).1 (by decide),
   (add_block_from_network_idempotent (fun _ => ['0']) 0 0
      { chain := [wb0, wb1], difficulty := 1 }
      { chain := [wb0], difficulty := 1 } wb1).2
      { chain := [wb0, wb1], difficulty := 1 } (by decide)⟩

/-- Witness for C9: a concrete acceptance step starting from difficulty 1. -/
theorem difficulty_never_below_one_witness :
    1 ≤ ({ chain := [wb0, wb1], difficulty := 1 } : Blockchain Unit).difficulty :=
  difficulty_never_below_one (fun _ => ['0'])
    { chain := [wb0], difficulty := 1 }
    { chain := [wb0, wb1], difficulty := 1 }
    (ReachableFrom.step _ _ _ 0 wb1 true (ReachableFrom.refl _) (by decide))
    (by decide)

/-- Witness for C2: replacing a length-3 local chain by a length-5 foreign
snapshot yields exactly the foreign chain, of length 5. -/
theorem chain_response_longest_chain_witness :
    (handle_chain_response
        { blockchain := { chain := [blk 0, blk 1, blk 2], difficulty := 2 },
          transaction_pool := [] }
        { chain := [blk 0, blk 1, blk 2, blk 3, blk 4], difficulty := 7 }).blockchain.chain
      = [blk 0, blk 1, blk 2, blk 3, blk 4] ∧
    (handle_chain_response
        { blockchain := { chain := [blk 0, blk 1, blk 2], difficulty := 2 },
          transaction_pool := [] }
        { chain := [blk 0, blk 1, blk 2, blk 3, blk 4], difficulty := 7 }).blockchain.chain.length
      = ([blk 0, blk 1, blk 2, blk 3, blk 4] : List (Block Unit)).length :=
  (chain_response_longest_chain
    { blockchain := { chain := [blk 0, blk 1, blk 2], difficulty := 2 },
      transaction_pool := [] }
    { chain := [blk 0, blk 1, blk 2, blk 3, blk 4], difficulty := 7 }).1 (by decide)

/-- Witness for C10 at a not-strictly-longer foreign snapshot: difficulty,
pool, and indeed the whole state are unchanged. -/
theorem chain_response_frame_witness :
    (handle_chain_response
        { blockchain := { chain := [blk 0, blk 1], difficulty := 2 },
          transaction_pool := [] }
        { chain := [blk 5], difficulty := 9 }).blockchain.difficulty = 2 ∧
    (handle_chain_response
        { blockchain := { chain := [blk 0, blk 1], difficulty := 2 },
          transaction_pool := [] }
        { chain := [blk 5], difficulty := 9 }).transaction_pool = [] ∧
    handle_chain_response
        { blockchain := { chain := [blk 0, blk 1], difficulty := 2 },
          transaction_pool := [] }
        { chain := [blk 5], difficulty := 9 }
      = { blockchain := { chain := [blk 0, blk 1], difficulty := 2 },
          transaction_pool := [] } :=
  ⟨(chain_response_frame _ _).1, (chain_response_frame _ _).2.1,
   (chain_response_frame _ _).2.2 (by decide)⟩

/-- `src/src/fractal/mod.rs`: the mining request template.  `F64` is the
(opaque) floating-point parameter type; each variant carries a `seed`. -/
inductive FractalType (F64 : Type) where
  | Sierpinski (depth : Nat) (seed : Nat)
  | Mandelbrot (width height : Nat) (x_min x_max y_min y_max : F64)
      (max_iterations : Nat) (seed : Nat)
  | Julia (width height : Nat) (x_min x_max y_min y_max c_real c_imag : F64)
      (max_iterations : Nat) (seed : Nat)
  deriving Repr, DecidableEq

/-- The `match &mut current_fractal_type { ... *seed = block.nonce ... }`
step of `Miner::mine_block`: overwrite the template's seed. -/
def FractalType.set_seed {F64 : Type} : FractalType F64 → Nat → FractalType F64
  | .Sierpinski depth _, n => .Sierpinski depth n
  | .Mandelbrot w ht a b c d mi _, n => .Mandelbrot w ht a b c d mi n
  | .Julia w ht a b c d cr ci mi _, n => .Julia w ht a b c d cr ci mi n

/-- `Miner::mine_block` (miner.rs lines 11-31).  `gen` abstracts
`FractalType::generate` (floating-point fractal generation); the unbounded
`loop` is given fuel, `none` meaning the search has not finished within it. -/
def Miner.mine_block {FD F64 : Type} (h : Block FD → Str)
    (gen : FractalType F64 → FD) (difficulty : Nat)
    (fractal_type : FractalType F64) (block : Block FD) (fuel : Nat) :
    Option (Block FD) :=
  match fuel with
  | 0 => none
  | fuel + 1 =>
    let current_fractal_type := fractal_type.set_seed block.nonce
    let block := { block with fractal := gen current_fractal_type }
    let hash := Block.calculate_hash h block
    if zeros difficulty <+: hash then some { block with hash := hash }
    else Miner.mine_block h gen difficulty fractal_type
      { block with nonce := block.nonce + 1 } fuel

/-- Claim C3: if `Miner::mine_block(d, t, b)` returns a block `r`, then
`r.hash` has `d` leading `'0'` characters, `r.hash` equals
`r.calculate_hash()`, `r.fractal` is freshly generated from the template
`t` with its seed set to `r.nonce`, and `r.nonce` is the first nonce
`≥ b.nonce` whose regenerated block hashes to a `d`-zero prefix (all other
fields of `b` are preserved). -/
theorem mine_block_spec {FD F64 : Type} (h : Block FD → Str)
    (gen : FractalType F64 → FD) (d : Nat) (t : FractalType F64)
    (b r : Block FD) (fuel : Nat)
    (hmine : Miner.mine_block h gen d t b fuel = some r) :
    zeros d <+: r.hash ∧
    r.hash = Block.calculate_hash h r ∧
    r.fractal = gen (t.set_seed r.nonce) ∧
    b.nonce ≤ r.nonce ∧
    (∀ n, b.nonce ≤ n → n < r.nonce →
      ¬ (zeros d <+: Block.calculate_hash h
          { b with fractal := gen (t.set_seed n), nonce := n })) ∧
    (zeros d <+: Block.calculate_hash h
      { b with fractal := gen (t.set_seed r.nonce), nonce := r.nonce }) ∧
    r = { b with fractal := gen (t.set_seed r.nonce), nonce := r.nonce,
                 hash := r.hash } := by
  induction fuel generalizing b with
  | zero => exact absurd hmine (by simp [Miner.mine_block])
  | succ fuel ih =>
    rw [Miner.mine_block] at hmine
    dsimp only at hmine
    split at hmine
    · rename_i hpref
      cases hmine
      refine ⟨hpref, rfl, rfl, Nat.le_refl _, ?_, hpref, rfl⟩
      intro n h1 h2
      exact absurd (Nat.lt_of_le_of_lt h1 h2) (Nat.lt_irrefl _)
    · rename_i hpref
      have hres := ih { b with fractal := gen (t.set_seed b.nonce),
                               nonce := b.nonce + 1 } hmine
      obtain ⟨c1, c2, c3, c4, c5, c6, c7⟩ := hres
      refine ⟨c1, c2, c3, Nat.le_of_succ_le c4, ?_, c6, c7⟩
      intro n h1 h2
      rcases Nat.eq_or_lt_of_le h1 with heq | hlt
      · subst heq
        exact hpref
      · exact c5 n hlt h2

/-- A concrete hash function for the mining witness: the hash starts with
`'0'` exactly when the nonce is odd. -/
def whash : Block Unit → Str :=
  fun b => if b.nonce % 2 = 1 then ['0'] else ['1']

/-- The block found by the mining witness: nonce 1, the first odd nonce. -/
def wmined : Block Unit := { blk 0 with nonce := 1, hash := ['0'] }

/-- Witness for C3: mining `blk 0` at difficulty 1 under `whash` stops at
nonce 1, the first nonce whose hash gains a `'0'` prefix. -/
theorem mine_block_spec_witness :
    zeros 1 <+: wmined.hash ∧
    wmined.hash = Block.calculate_hash whash wmined ∧
    wmined.fractal = (fun _ => ())
      ((FractalType.Sierpinski 2 7 : FractalType Unit).set_seed wmined.nonce) ∧
    (blk 0).nonce ≤ wmined.nonce ∧
    (∀ n, (blk 0).nonce ≤ n → n < wmined.nonce →
      ¬ (zeros 1 <+: Block.calculate_hash whash
          { blk 0 with
              fractal := (fun _ => ())
                ((FractalType.Sierpinski 2 7 : FractalType Unit).set_seed n),
              nonce := n })) ∧
    (zeros 1 <+: Block.calculate_hash whash
      { blk 0 with
          fractal := (fun _ => ())
            ((FractalType.Sierpinski 2 7 : FractalType Unit).set_seed wmined.nonce),
          nonce := wmined.nonce }) ∧
    wmined = { blk 0 with
        fractal := (fun _ => ())
          ((FractalType.Sierpinski 2 7 : FractalType Unit).set_seed wmined.nonce),
        nonce := wmined.nonce, hash := wmined.hash } :=
  mine_block_spec whash (fun _ => ()) 1
    (FractalType.Sierpinski 2 7 : FractalType Unit)
    (blk 0) wmined 3 (by decide)

/-- `Transaction::calculate_hash`: the id is blanked and every input's
`script_sig`/`pub_key` is blanked before serializing and hashing; `htx`
abstracts serialize-then-SHA256. -/
def Transaction.calculate_hash (htx : Transaction → Str) (tx : Transaction) : Str :=
  htx { tx with
    id := [],
    inputs := tx.inputs.map
      (fun input => { input with script_sig := [], pub_key := [] }) }

/-- `Transaction::sign` (transaction.rs lines 79-87): the pre-signature id
is signed once, and the same signature and public key are stamped onto
every input.  `wallet_sign` abstracts `Wallet::sign` (ed25519 signing, 64
bytes out), `wallet_pub` abstracts `wallet.get_public_key().as_bytes()`
(32 bytes), `hexEncode` the hex crate's encoder. -/
def Transaction.sign {SK : Type} (htx : Transaction → Str)
    (hexEncode : List Nat → Str) (wallet_sign : SK → Str → List Nat)
    (wallet_pub : SK → List Nat) (wallet : SK) (tx : Transaction) :
    Transaction :=
  let tx_hash := Transaction.calculate_hash htx tx
  let signature := wallet_sign wallet tx_hash
  { tx with inputs := tx.inputs.map (fun input =>
      { input with
          script_sig := hexEncode signature,
          pub_key := hexEncode (wallet_pub wallet) }) }

/-- `Transaction::verify` (transaction.rs lines 91-127): recompute the
pre-signature id; skip coinbase inputs (txid of 64 zero characters); for
every other input hex-decode the signature (must be 64 bytes) and public
key (must be 32 bytes and a valid key, `keyFromBytes` abstracting
`VerifyingKey::from_bytes`), then check the signature (`verifyOk`
abstracting ed25519 verification); any failure fails the transaction. -/
def Transaction.verify {PK : Type} (htx : Transaction → Str)
    (hexDecode : Str → Option (List Nat))
    (keyFromBytes : List Nat → Option PK)
    (verifyOk : PK → Str → List Nat → Bool) (tx : Transaction) : Bool :=
  let tx_hash := Transaction.calculate_hash htx tx
  tx.inputs.all (fun input =>
    if input.txid = zeros 64 then true
    else
      match hexDecode input.script_sig with
      | none => false
      | some signature_bytes =>
        if signature_bytes.length = 64 then
          match hexDecode input.pub_key with
          | none => false
          | some pub_key_bytes =>
            if pub_key_bytes.length = 32 then
              match keyFromBytes pub_key_bytes with
              | none => false
              | some verifying_key => verifyOk verifying_key tx_hash signature_bytes
            else false
        else false)

/-- Claim C8: `Transaction::verify` is total (never panics) and returns
true exactly when every input either is coinbase (txid of 64 zero
characters, skipped) or hex-decodes to a 64-byte signature and a 32-byte
valid public key that verifies the recomputed pre-signature id; so any
decode failure, wrong length, invalid key, or signature mismatch on a
non-coinbase input makes it return false, while coinbase inputs never
cause a failure. -/
theorem verify_eq_true_iff {PK : Type} (htx : Transaction → Str)
    (hexDecode : Str → Option (List Nat))
    (keyFromBytes : List Nat → Option PK)
    (verifyOk : PK → Str → List Nat → Bool) (tx : Transaction) :
    Transaction.verify htx hexDecode keyFromBytes verifyOk tx = true ↔
      ∀ input ∈ tx.inputs, input.txid = zeros 64 ∨
        ∃ signature_bytes pub_key_bytes verifying_key,
          hexDecode input.script_sig = some signature_bytes ∧
          signature_bytes.length = 64 ∧
          hexDecode input.pub_key = some pub_key_bytes ∧
          pub_key_bytes.length = 32 ∧
          keyFromBytes pub_key_bytes = some verifying_key ∧
          verifyOk verifying_key (Transaction.calculate_hash htx tx)
            signature_bytes = true := by
  unfold Transaction.verify
  rw [List.all_eq_true]
  constructor
  · intro hall input hmem
    have hb := hall input hmem
    by_cases hcb : input.txid = zeros 64
    · exact Or.inl hcb
    · refine Or.inr ?_
      rw [if_neg hcb] at hb
      rcases hsd : hexDecode input.script_sig with _ | sigb <;> rw [hsd] at hb
      · exact absurd hb (by simp)
      · dsimp only at hb
        by_cases hlen : sigb.length = 64
        · rw [if_pos hlen] at hb
          rcases hpd : hexDecode input.pub_key with _ | pkb <;> rw [hpd] at hb
          · exact absurd hb (by simp)
          · dsimp only at hb
            by_cases hplen : pkb.length = 32
            · rw [if_pos hplen] at hb
              rcases hkb : keyFromBytes pkb with _ | vk <;> rw [hkb] at hb
              · exact absurd hb (by simp)
              · exact ⟨sigb, pkb, vk, rfl, hlen, rfl, hplen, hkb, hb⟩
            · rw [if_neg hplen] at hb
              exact absurd hb (by simp)
        · rw [if_neg hlen] at hb
          exact absurd hb (by simp)
  · intro hall input hmem
    rcases hall input hmem with hcb | ⟨sigb, pkb, vk, hsd, hlen, hpd, hplen, hkb, hv⟩
    · rw [if_pos hcb]
    · by_cases hcb : input.txid = zeros 64
      · rw [if_pos hcb]
      · rw [if_neg hcb, hsd]
        dsimp only
        rw [if_pos hlen, hpd]
        dsimp only
        rw [if_pos hplen, hkb]
        exact hv

theorem calculate_hash_sign {SK : Type} (htx : Transaction → Str)
    (hexEncode : List Nat → Str) (wallet_sign : SK → Str → List Nat)
    (wallet_pub : SK → List Nat) (wallet : SK) (tx : Transaction) :
    Transaction.calculate_hash htx
        (Transaction.sign htx hexEncode wallet_sign wallet_pub wallet tx)
      = Transaction.calculate_hash htx tx := by
  unfold Transaction.sign Transaction.calculate_hash
  dsimp only
  rw [List.map_map]
  rfl

/-- Claim C5: signing stamps one signature over the pre-signature id and
the wallet's public key onto every input, and the signed transaction then
verifies — under the guarantees of the external crates (hex decode
inverts encode, signatures are 64 bytes, public keys are 32 bytes and
round-trip through `VerifyingKey::from_bytes`, and honestly produced
signatures verify). -/
theorem sign_then_verify {SK PK : Type} (htx : Transaction → Str)
    (hexEncode : List Nat → Str) (hexDecode : Str → Option (List Nat))
    (wallet_sign : SK → Str → List Nat) (wallet_pub : SK → List Nat)
    (keyFromBytes : List Nat → Option PK)
    (verifyOk : PK → Str → List Nat → Bool) (wallet : SK) (tx : Transaction)
    (hsig_rt : hexDecode (hexEncode (wallet_sign wallet
        (Transaction.calculate_hash htx tx)))
      = some (wallet_sign wallet (Transaction.calculate_hash htx tx)))
    (hpub_rt : hexDecode (hexEncode (wallet_pub wallet))
      = some (wallet_pub wallet))
    (hsiglen : ∀ m, (wallet_sign wallet m).length = 64)
    (hpublen : (wallet_pub wallet).length = 32)
    (hkey : ∃ k, keyFromBytes (wallet_pub wallet) = some k ∧
      ∀ m, verifyOk k m (wallet_sign wallet m) = true) :
    Transaction.verify htx hexDecode keyFromBytes verifyOk
      (Transaction.sign htx hexEncode wallet_sign wallet_pub wallet tx)
      = true := by
  obtain ⟨k, hk, hvk⟩ := hkey
  have hhash := calculate_hash_sign htx hexEncode wallet_sign wallet_pub wallet tx
  unfold Transaction.verify
  rw [List.all_eq_true]
  intro input hmem
  rw [hhash]
  unfold Transaction.sign at hmem
  dsimp only at hmem
  rw [List.mem_map] at hmem
  obtain ⟨input0, hmem0, rfl⟩ := hmem
  dsimp only
  by_cases hcb : input0.txid = zeros 64
  · rw [if_pos hcb]
  · rw [if_neg hcb, hsig_rt]
    dsimp only
    rw [if_pos (hsiglen _), hpub_rt]
    dsimp only
    rw [if_pos hpublen, hk]
    exact hvk _

/-- The concrete transaction used by the signing witness: one non-coinbase
input, not yet signed. -/
def wtx : Transaction :=
  { id := [], timestamp := 0,
    inputs := [{ txid := ['a'], vout := 0, script_sig := [], pub_key := [],
                 sequence := 0 }],
    outputs := [] }

/-- Witness for C5: a concrete signature scheme (constant 64-byte
signatures, a 32-byte key, a verifier accepting them) under which the
concrete transaction `wtx`, once signed, verifies. -/
theorem sign_then_verify_witness :
    Transaction.verify (fun _ => [])
      (fun s => if s = ['s'] then some (List.replicate 64 0)
                else some (List.replicate 32 1))
      (fun _ => some ()) (fun _ _ _ => true)
      (Transaction.sign (fun _ => [])
        (fun bs => if bs.length = 64 then ['s'] else ['p'])
        (fun _ _ => List.replicate 64 0) (fun _ => List.replicate 32 1)
        () wtx)
      = true :=
  sign_then_verify (fun _ => [])
    (fun bs => if bs.length = 64 then ['s'] else ['p'])
    (fun s => if s = ['s'] then some (List.replicate 64 0)
              else some (List.replicate 32 1))
    (fun _ _ => List.replicate 64 0) (fun _ => List.replicate 32 1)
    (fun _ => some ()) (fun _ _ _ => true) () wtx
    (by decide) (by decide) (fun m => by simp) (by decide)
    ⟨(), rfl, fun m => rfl⟩

/-- The first pass of `Blockchain::get_utxos` (chain.rs lines 155-163): the
set of all `(txid, vout)` pairs referenced by any input anywhere in the
chain; the `HashSet` is modelled as the list of inserted pairs (only
membership is ever consulted). -/
def Blockchain.collect_spent {FD : Type} (bc : Blockchain FD) :
    List (Str × Nat) :=
  bc.chain.foldl (fun acc block =>
    block.transactions.foldl (fun acc tx =>
      tx.inputs.foldl (fun acc input =>
        acc ++ [(input.txid, input.vout)]) acc) acc) []

/-- `Blockchain::get_utxos` (chain.rs lines 154-179): the second pass
pushes, in chain/transaction/output order, every output addressed to
`address` whose `(txid, vout)` is not in the consumed set. -/
def Blockchain.get_utxos {FD : Type} (bc : Blockchain FD) (address : Str) :
    List (Str × Nat × TxOutput) :=
  bc.chain.foldl (fun acc block =>
    block.transactions.foldl (fun acc tx =>
      tx.outputs.enum.foldl (fun acc vo =>
        if vo.2.script_pub_key = address then
          if ¬ (tx.id, vo.1) ∈ bc.collect_spent then
            acc ++ [(tx.id, vo.1, vo.2)]
          else acc
        else acc) acc) acc) []

/-- `Blockchain::get_balance` (chain.rs lines 182-187): sum of the values
of the address's UTXOs. -/
def Blockchain.get_balance {FD : Type} (bc : Blockchain FD) (address : Str) :
    Nat :=
  ((bc.get_utxos address).map (fun u => u.2.2.value)).sum

/-- The pair `k` is referenced by some input of some transaction somewhere
in the chain. -/
def spent_in_chain {FD : Type} (bc : Blockchain FD) (k : Str × Nat) : Prop :=
  ∃ block ∈ bc.chain, ∃ tx ∈ block.transactions, ∃ input ∈ tx.inputs,
    (input.txid, input.vout) = k

instance {FD : Type} (bc : Blockchain FD) (k : Str × Nat) :
    Decidable (spent_in_chain bc k) := by
  unfold spent_in_chain
  infer_instance

/-- The UTXO list as the claim states it: those `(txid, vout, output)`
triples whose output is addressed to `address` and whose pair is consumed
by no input anywhere in the chain, in chain order, then transaction order,
then output order. -/
def utxos_spec {FD : Type} (bc : Blockchain FD) (address : Str) :
    List (Str × Nat × TxOutput) :=
  bc.chain.flatMap (fun block =>
    block.transactions.flatMap (fun tx =>
      (tx.outputs.enum.filter (fun vo =>
        decide (vo.2.script_pub_key = address ∧
          ¬ spent_in_chain bc (tx.id, vo.1)))).map
        (fun vo => (tx.id, vo.1, vo.2))))

theorem foldl_append {α β : Type} (f : α → List β) :
    ∀ (l : List α) (init : List β),
      l.foldl (fun acc x => acc ++ f x) init = init ++ l.flatMap f := by
  intro l
  induction l with
  | nil => intro init; simp
  | cons a l ih =>
      intro init
      simp only [List.foldl_cons, List.flatMap_cons, ih, List.append_assoc]

theorem foldl_push_filter {α β : Type} (p q : α → Prop) [DecidablePred p]
    [DecidablePred q] (g : α → β) :
    ∀ (l : List α) (init : List β),
      l.foldl (fun acc x =>
          if p x then (if q x then acc ++ [g x] else acc) else acc) init
        = init ++ (l.filter (fun x => decide (p x ∧ q x))).map g := by
  intro l
  induction l with
  | nil => intro init; simp
  | cons a l ih =>
      intro init
      by_cases hp : p a <;> by_cases hq : q a <;>
        simp [hp, hq, ih, List.append_assoc]

theorem foldl_append_map {α β : Type} (g : α → β) :
    ∀ (l : List α) (init : List β),
      l.foldl (fun acc x => acc ++ [g x]) init = init ++ l.map g := by
  intro l
  induction l with
  | nil => intro init; simp
  | cons a l ih =>
      intro init
      simp only [List.foldl_cons, List.map_cons, ih, List.append_assoc,
        List.singleton_append]

theorem collect_spent_eq {FD : Type} (bc : Blockchain FD) :
    bc.collect_spent = bc.chain.flatMap (fun block =>
      block.transactions.flatMap (fun tx =>
        tx.inputs.map (fun input => (input.txid, input.vout)))) := by
  unfold Blockchain.collect_spent
  have hin : ∀ (acc : List (Str × Nat)) (tx : Transaction),
      tx.inputs.foldl (fun acc input => acc ++ [(input.txid, input.vout)]) acc
        = acc ++ tx.inputs.map (fun input => (input.txid, input.vout)) :=
    fun acc tx => foldl_append_map _ _ _
  have hmid : ∀ (acc : List (Str × Nat)) (block : Block FD),
      block.transactions.foldl (fun acc tx =>
        tx.inputs.foldl (fun acc input => acc ++ [(input.txid, input.vout)]) acc) acc
        = acc ++ block.transactions.flatMap (fun tx =>
            tx.inputs.map (fun input => (input.txid, input.vout))) := by
    intro acc block
    simp only [hin]
    exact foldl_append _ _ _
  simp only [hmid]
  rw [foldl_append, List.nil_append]

theorem mem_collect_spent {FD : Type} (bc : Blockchain FD) (k : Str × Nat) :
    k ∈ bc.collect_spent ↔ spent_in_chain bc k := by
  rw [collect_spent_eq]
  unfold spent_in_chain
  simp [List.mem_flatMap, List.mem_map]

theorem get_utxos_eq_spec {FD : Type} (bc : Blockchain FD) (address : Str) :
    bc.get_utxos address = utxos_spec bc address := by
  unfold Blockchain.get_utxos utxos_spec
  have hin : ∀ (acc : List (Str × Nat × TxOutput)) (tx : Transaction),
      tx.outputs.enum.foldl (fun acc vo =>
        if vo.2.script_pub_key = address then
          if ¬ (tx.id, vo.1) ∈ bc.collect_spent then
            acc ++ [(tx.id, vo.1, vo.2)]
          else acc
        else acc) acc
        = acc ++ (tx.outputs.enum.filter (fun vo =>
            decide (vo.2.script_pub_key = address ∧
              ¬ spent_in_chain bc (tx.id, vo.1)))).map
            (fun vo => (tx.id, vo.1, vo.2)) := by
    intro acc tx
    rw [foldl_push_filter (fun vo : Nat × TxOutput => vo.2.script_pub_key = address)
      (fun vo : Nat × TxOutput => ¬ (tx.id, vo.1) ∈ bc.collect_spent)
      (fun vo : Nat × TxOutput => (tx.id, vo.1, vo.2))]
    congr 1
    congr 1
    apply List.filter_congr
    intro vo _
    rw [decide_eq_decide]
    exact and_congr_right fun _ => not_congr (mem_collect_spent bc _)
  have hmid : ∀ (acc : List (Str × Nat × TxOutput)) (block : Block FD),
      block.transactions.foldl (fun acc tx =>
        tx.outputs.enum.foldl (fun acc vo =>
          if vo.2.script_pub_key = address then
            if ¬ (tx.id, vo.1) ∈ bc.collect_spent then
              acc ++ [(tx.id, vo.1, vo.2)]
            else acc
          else acc) acc) acc
        = acc ++ block.transactions.flatMap (fun tx =>
            (tx.outputs.enum.filter (fun vo =>
              decide (vo.2.script_pub_key = address ∧
                ¬ spent_in_chain bc (tx.id, vo.1)))).map
              (fun vo => (tx.id, vo.1, vo.2))) := by
    intro acc block
    simp only [hin]
    exact foldl_append _ _ _
  simp only [hmid]
  rw [foldl_append, List.nil_append]

/-- Claim C4: `get_utxos(a)` returns exactly the `(txid, vout, output)`
triples whose output pays `a` and whose pair is referenced by no input of
any transaction anywhere in the chain, in chain order, then transaction
order, then output order; and `get_balance(a)` is the sum of the values of
those outputs. -/
theorem get_utxos_get_balance_spec {FD : Type} (bc : Blockchain FD)
    (address : Str) :
    bc.get_utxos address = utxos_spec bc address ∧
    bc.get_balance address
      = ((utxos_spec bc address).map (fun u => u.2.2.value)).sum :=
  ⟨get_utxos_eq_spec bc address, by
    unfold Blockchain.get_balance
    rw [get_utxos_eq_spec]⟩

end SierpChain
